import Mathlib

/-!
Verification of `sync_buddylive_to_tv_channels.py` (the single source file of
the `iptv` repository): a pipeline that parses M3U playlist text into entry
blocks, filters entries by name rules, deduplicates entries by lowercased
display name across nine sources, and renders a combined playlist.

Python strings are embedded as `List Char`; Python's `set[str]` is embedded as
a duplicate-free `List (List Char)` used only through membership and
insert-if-absent, which is extensionally the same.  Network I/O (the HTTP GET
in `fetch_and_filter` and in `main`) is replaced by passing the fetched text,
respectively the per-source fetch outcomes, as explicit arguments.
-/

namespace Iptv

/-- A Python string, embedded as its list of characters. -/
abbrev Str := List Char

/-- Coerce a Lean string literal to the embedding. -/
def str (s : String) : Str := s.data

/-- One parsed entry block: its list of raw lines. -/
abbrev Block := List Str

/-- The whitespace characters stripped by Python's `str.strip` /
`str.lstrip` (the ASCII ones; the entries of this playlist format are
ASCII-delimited). -/
def pySpace (c : Char) : Bool :=
  c == ' ' || c == '\t' || c == '\n' || c == '\r' || c == '\x0b' || c == '\x0c'

/-- Python `s.lstrip()`. -/
def lstrip (s : Str) : Str := s.dropWhile pySpace

/-- Python `s.rstrip()`. -/
def rstrip (s : Str) : Str := (s.reverse.dropWhile pySpace).reverse

/-- Python `s.strip()`. -/
def pyStrip (s : Str) : Str := rstrip (lstrip s)

/-- Python `s.lower()` (characterwise, as for the ASCII names involved). -/
def lower (s : Str) : Str := s.map Char.toLower

/-- Python `s.startswith(p)`. -/
def startswith (p s : Str) : Bool := p.isPrefixOf s

/-- Python `needle in hay` substring containment. -/
def containsSub (needle hay : Str) : Bool :=
  hay.tails.any (fun t => needle.isPrefixOf t)

/-- Python `"\n".join(ls)`. -/
def joinNL : List Str → Str
  | [] => []
  | [l] => l
  | l :: ls => l ++ '\n' :: joinNL ls

/-- Helper for `splitlines`: `acc` is the current line, reversed. -/
def splitlinesGo : Str → Str → List Str
  | [], acc => if acc.isEmpty then [] else [acc.reverse]
  | '\r' :: '\n' :: rest, acc => acc.reverse :: splitlinesGo rest []
  | '\r' :: rest, acc => acc.reverse :: splitlinesGo rest []
  | '\n' :: rest, acc => acc.reverse :: splitlinesGo rest []
  | c :: rest, acc => splitlinesGo rest (c :: acc)

/-- Python `text.splitlines()` on the line boundaries `\n`, `\r\n` and `\r`
(the boundaries occurring in this text format); a trailing newline does not
produce a final empty line. -/
def splitlines (s : Str) : List Str := splitlinesGo s []

/-- The display name drawn from an `#EXTINF` line:
`line[last_comma + 1 :].strip()` when the line has a comma (`rfind` ≥ 0),
`""` otherwise.  The text after the last comma is the reversed longest
comma-free suffix. -/
def nameFromExtinf (line : Str) : Str :=
  if ',' ∈ line then pyStrip (line.reverse.takeWhile (fun c => c ≠ ',')).reverse
  else []

/-- The inner `while` of `parse_m3u_blocks`: append lines to the open block
until (and including) a line whose stripped content starts with `http`;
return the collected lines and the remaining input lines. -/
def collectBlock : List Str → List Str × List Str
  | [] => ([], [])
  | l :: rest =>
    if startswith (str "http") (pyStrip l) then ([l], rest)
    else
      let (b, r) := collectBlock rest
      (l :: b, r)

theorem collectBlock_snd_length (ls : List Str) :
    (collectBlock ls).2.length ≤ ls.length := by
  induction ls with
  | nil => simp [collectBlock]
  | cons l rest ih =>
    simp only [collectBlock]
    split
    · simp
    · simpa using Nat.le_succ_of_le ih

/-- `parse_m3u_blocks`, after `splitlines`: scan lines; an `#EXTINF` line (by
stripped prefix) opens a block whose display name is the text after the last
comma of that line; other lines outside a block are ignored.  The outer
`while` loop is rendered with a fuel argument bounding its iteration count:
each iteration consumes at least one line (`collectBlock` returns a suffix of
its input, `collectBlock_snd_length`), so fuel equal to the number of lines
is never exhausted. -/
def parseLines : Nat → List Str → List (Str × Block)
  | 0, _ => []
  | _ + 1, [] => []
  | fuel + 1, line :: rest =>
    if startswith (str "#EXTINF") (pyStrip line) then
      let p := collectBlock rest
      (nameFromExtinf line, line :: p.1) :: parseLines fuel p.2
    else parseLines fuel rest

theorem parseLines_nil (fuel : Nat) : parseLines fuel [] = [] := by
  cases fuel <;> rfl

/-- `parse_m3u_blocks(text)`: parse M3U text into `(display_name, block_lines)`
pairs. -/
def parse_m3u_blocks (text : Str) : List (Str × Block) :=
  parseLines (splitlines text).length (splitlines text)

/-- `should_skip(name, ignore_name_start, ignore_names)`: skip when the name is
empty, when it starts (after `lstrip`) with the non-empty ignore marker, or
when its stripped lowercased form is one of the ignored names. -/
def should_skip (name ignore_name_start : Str) (ignore_names : List Str) : Bool :=
  if name.isEmpty then true
  else if !ignore_name_start.isEmpty && startswith ignore_name_start (lstrip name) then true
  else if ignore_names.contains (lower (pyStrip name)) then true
  else false

/-- The `for name, block in blocks` loop of `fetch_and_filter`: keep a block
unless `should_skip(name, "[", ignore_names)` or `"fanduel" in name.lower()`,
or `"fanduel" in extinf_line.lower()` (the block's first line, `""` when the
block is empty), or `"moveonjoy" in "\n".join(block).lower()`; count the
skipped entries. -/
def filterBlocks : List (Str × Block) → List Str → List Block × Nat
  | [], _ => ([], 0)
  | (name, block) :: rest, ignore_names =>
    let p := filterBlocks rest ignore_names
    if should_skip name (str "[") ignore_names || containsSub (str "fanduel") (lower name) then
      (p.1, p.2 + 1)
    else if containsSub (str "fanduel") (lower (block.headD [])) then
      (p.1, p.2 + 1)
    else if containsSub (str "moveonjoy") (lower (joinNL block)) then
      (p.1, p.2 + 1)
    else (block :: p.1, p.2)

/-- `fetch_and_filter(url, ignore_names)` with the HTTP GET replaced by the
already-fetched text: parse, then filter; return the kept channel blocks and
the skipped count. -/
def fetch_and_filter (text : Str) (ignore_names : List Str) : List Block × Nat :=
  filterBlocks (parse_m3u_blocks text) ignore_names

/-- `_name_from_block(block)`: the display name from the block's first
`#EXTINF` line (text after the last comma), `""` for an empty block. -/
def name_from_block (block : Block) : Str :=
  match block with
  | [] => []
  | extinf :: _ => nameFromExtinf extinf

/-- `dedupe_blocks_by_name(blocks, seen)`: keep only blocks whose lowercased
display name is not in `seen`, adding each kept name; return
`(kept, updated_seen, skipped_dup)`. -/
def dedupe_blocks_by_name : List Block → List Str → List Block × List Str × Nat
  | [], seen => ([], seen, 0)
  | block :: rest, seen =>
    let key := lower (name_from_block block)
    if seen.contains key then
      let p := dedupe_blocks_by_name rest seen
      (p.1, p.2.1, p.2.2 + 1)
    else
      let p := dedupe_blocks_by_name rest (key :: seen)
      (block :: p.1, p.2.1, p.2.2)

/-- The nine section header lines of `main`, in source priority order. -/
def LIVE_SECTION : Str := str "# === live ==="
def BACKUP_SECTION : Str := str "# === Backup ==="
def THETVAPP_SECTION : Str := str "# === TheTVApp ==="
def XUMO_SECTION : Str := str "# === Xumo ==="
def LOCALNOW_SECTION : Str := str "# === LocalNow ==="
def TUBI_SECTION : Str := str "# === Tubi ==="
def ROKU_SECTION : Str := str "# === Roku ==="
def PLUTO_SECTION : Str := str "# === Pluto TV ==="
def PLEX_SECTION : Str := str "# === Plex ==="

def sectionHeaders : List Str :=
  [LIVE_SECTION, BACKUP_SECTION, THETVAPP_SECTION, XUMO_SECTION, LOCALNOW_SECTION,
   TUBI_SECTION, ROKU_SECTION, PLUTO_SECTION, PLEX_SECTION]

/-- One section of `main`'s output buffer: the header line, then each kept
block's lines followed by a blank separator line. -/
def sectionLines (header : Str) (kept : List Block) : List Str :=
  header :: (kept.map (fun block => block ++ [[]])).flatten

/-- `main`'s output buffer `out_lines`: the `#EXTM3U` header, the
`# Last synced: {iso}Z` timestamp line, a blank line, then the nine sections
in priority order. -/
def outLines (iso : Str) (live backup tvapp xumo localnow tubi roku pluto plex : List Block) :
    List Str :=
  [str "#EXTM3U", str "# Last synced: " ++ iso ++ ['Z'], []]
    ++ sectionLines LIVE_SECTION live
    ++ sectionLines BACKUP_SECTION backup
    ++ sectionLines THETVAPP_SECTION tvapp
    ++ sectionLines XUMO_SECTION xumo
    ++ sectionLines LOCALNOW_SECTION localnow
    ++ sectionLines TUBI_SECTION tubi
    ++ sectionLines ROKU_SECTION roku
    ++ sectionLines PLUTO_SECTION pluto
    ++ sectionLines PLEX_SECTION plex

/-- `out_text.endswith("\n")` for the one-character suffix: the last character
is a newline. -/
def endsWithNewline (s : Str) : Bool := s.getLast? == some '\n'

/-- `out_text = "\n".join(out_lines)`, with a newline appended when the text
does not already end with one. -/
def renderText (lines : List Str) : Str :=
  let t := joinNL lines
  if endsWithNewline t then t else t ++ ['\n']

/-- The dedupe phase of `main`: thread the seen-name set through the
per-source block lists in priority order; return the per-source kept lists
(in order) and the final seen set. -/
def dedupeChain : List (List Block) → List Str → List (List Block) × List Str
  | [], seen => ([], seen)
  | blocks :: rest, seen =>
    let p := dedupe_blocks_by_name blocks seen
    let q := dedupeChain rest p.2.1
    (p.1 :: q.1, q.2)

/-- The pure part of `main` from the nine fetched texts to the output text:
filter each source, dedupe across sources against an initially empty seen
set, and render. -/
def syncPipeline (ignore_names : List Str) (iso : Str)
    (t1 t2 t3 t4 t5 t6 t7 t8 t9 : Str) : Str :=
  let b1 := (fetch_and_filter t1 ignore_names).1
  let b2 := (fetch_and_filter t2 ignore_names).1
  let b3 := (fetch_and_filter t3 ignore_names).1
  let b4 := (fetch_and_filter t4 ignore_names).1
  let b5 := (fetch_and_filter t5 ignore_names).1
  let b6 := (fetch_and_filter t6 ignore_names).1
  let b7 := (fetch_and_filter t7 ignore_names).1
  let b8 := (fetch_and_filter t8 ignore_names).1
  let b9 := (fetch_and_filter t9 ignore_names).1
  let d1 := dedupe_blocks_by_name b1 []
  let d2 := dedupe_blocks_by_name b2 d1.2.1
  let d3 := dedupe_blocks_by_name b3 d2.2.1
  let d4 := dedupe_blocks_by_name b4 d3.2.1
  let d5 := dedupe_blocks_by_name b5 d4.2.1
  let d6 := dedupe_blocks_by_name b6 d5.2.1
  let d7 := dedupe_blocks_by_name b7 d6.2.1
  let d8 := dedupe_blocks_by_name b8 d7.2.1
  let d9 := dedupe_blocks_by_name b9 d8.2.1
  renderText (outLines iso d1.1 d2.1 d3.1 d4.1 d5.1 d6.1 d7.1 d8.1 d9.1)

/-- `main`'s control flow over the nine per-source fetch outcomes (each an
`Except` carrying the fetched text or the raised error's message), the
`--dry-run` flag and a timestamp: the first failing fetch returns exit code 1
with no file written (`none`); when all nine succeed the exit code is 0 and
the file content is written unless `--dry-run` is set. -/
def main_model (ignore_names : List Str) (iso : Str) (dryRun : Bool)
    (r1 r2 r3 r4 r5 r6 r7 r8 r9 : Except Str Str) : Nat × Option Str :=
  match r1 with
  | .error _ => (1, none)
  | .ok t1 =>
  match r2 with
  | .error _ => (1, none)
  | .ok t2 =>
  match r3 with
  | .error _ => (1, none)
  | .ok t3 =>
  match r4 with
  | .error _ => (1, none)
  | .ok t4 =>
  match r5 with
  | .error _ => (1, none)
  | .ok t5 =>
  match r6 with
  | .error _ => (1, none)
  | .ok t6 =>
  match r7 with
  | .error _ => (1, none)
  | .ok t7 =>
  match r8 with
  | .error _ => (1, none)
  | .ok t8 =>
  match r9 with
  | .error _ => (1, none)
  | .ok t9 =>
    let out := syncPipeline ignore_names iso t1 t2 t3 t4 t5 t6 t7 t8 t9
    if dryRun then (0, none) else (0, some out)

/-- The deduplication key of a block: its lowercased display name. -/
def lname (b : Block) : Str := lower (name_from_block b)

/-- Modelled from the spec's deduplication contract: a block is kept exactly
when its lowercased display name is not in the seen set at the moment it is
processed.  Because a dropped block's name is already in the set at that
moment, the set at any moment consists (as a set) of the initial names
together with the lowercased names of all previously processed blocks, which
is how this definition renders "the set at the moment": `pre` is the list of
already-processed blocks. -/
def dedupeKeptSpec (seen₀ : List Str) : List Block → List Block → List Block
  | _, [] => []
  | pre, b :: bs =>
    if lname b ∈ seen₀ ∨ lname b ∈ pre.map lname then dedupeKeptSpec seen₀ (pre ++ [b]) bs
    else b :: dedupeKeptSpec seen₀ (pre ++ [b]) bs

theorem contains_iff_mem (l : List Str) (x : Str) : l.contains x = true ↔ x ∈ l := by
  simp [List.contains_eq_any_beq]

theorem dedupe_kept_eq_spec (seen₀ : List Str) (bs : List Block) :
    ∀ pre seen, (∀ x, x ∈ seen ↔ x ∈ seen₀ ∨ x ∈ pre.map lname) →
      (dedupe_blocks_by_name bs seen).1 = dedupeKeptSpec seen₀ pre bs := by
  induction bs with
  | nil => intro pre seen _; simp [dedupe_blocks_by_name, dedupeKeptSpec]
  | cons b bs ih =>
    intro pre seen hinv
    by_cases hc : seen.contains (lower (name_from_block b)) = true
    · have hc' : seen.contains (lname b) = true := hc
      have hmem : lname b ∈ seen₀ ∨ lname b ∈ pre.map lname :=
        (hinv _).mp ((contains_iff_mem _ _).mp hc')
      simp only [dedupe_blocks_by_name, dedupeKeptSpec]
      rw [if_pos hc, if_pos hmem]
      exact ih (pre ++ [b]) seen (fun x => by
        rw [hinv x]
        simp only [List.map_append, List.mem_append, List.map_cons, List.map_nil,
          List.mem_cons, List.not_mem_nil, or_false]
        constructor
        · tauto
        · rintro (h | h | rfl)
          · exact Or.inl h
          · exact Or.inr h
          · exact hmem)
    · have hmem : ¬(lname b ∈ seen₀ ∨ lname b ∈ pre.map lname) := by
        intro h
        exact hc ((contains_iff_mem _ _).mpr ((hinv _).mpr h))
      simp only [dedupe_blocks_by_name, dedupeKeptSpec]
      rw [if_neg hc, if_neg hmem]
      simp only [List.cons.injEq, true_and]
      exact ih (pre ++ [b]) (lname b :: seen) (fun x => by
        simp only [List.mem_cons, hinv x, List.map_append, List.mem_append,
          List.map_cons, List.map_nil, List.not_mem_nil, or_false]
        tauto)

theorem dedupe_seen_mem (bs : List Block) :
    ∀ seen x, x ∈ (dedupe_blocks_by_name bs seen).2.1 ↔
      x ∈ seen ∨ x ∈ (dedupe_blocks_by_name bs seen).1.map lname := by
  induction bs with
  | nil => intro seen x; simp [dedupe_blocks_by_name]
  | cons b bs ih =>
    intro seen x
    by_cases hc : seen.contains (lower (name_from_block b)) = true
    · simp only [dedupe_blocks_by_name, if_pos hc]
      exact ih seen x
    · simp only [dedupe_blocks_by_name, if_neg hc]
      rw [ih (lower (name_from_block b) :: seen) x]
      simp only [List.mem_cons, List.map_cons, lname]
      tauto

theorem dedupe_count (bs : List Block) :
    ∀ seen, (dedupe_blocks_by_name bs seen).1.length + (dedupe_blocks_by_name bs seen).2.2 =
      bs.length := by
  induction bs with
  | nil => intro seen; simp [dedupe_blocks_by_name]
  | cons b bs ih =>
    intro seen
    by_cases hc : seen.contains (lower (name_from_block b)) = true
    · simp only [dedupe_blocks_by_name, if_pos hc, List.length_cons]
      have := ih seen
      omega
    · simp only [dedupe_blocks_by_name, if_neg hc, List.length_cons]
      have := ih (lower (name_from_block b) :: seen)
      omega

theorem dedupe_kept_sublist (bs : List Block) :
    ∀ seen, List.Sublist (dedupe_blocks_by_name bs seen).1 bs := by
  induction bs with
  | nil => intro seen; simp [dedupe_blocks_by_name]
  | cons b bs ih =>
    intro seen
    by_cases hc : seen.contains (lower (name_from_block b)) = true
    · simp only [dedupe_blocks_by_name, if_pos hc]
      exact (ih seen).cons b
    · simp only [dedupe_blocks_by_name, if_neg hc]
      exact (ih _).cons₂ b

theorem dedupe_seen_subset (bs : List Block) (seen : List Str) :
    seen ⊆ (dedupe_blocks_by_name bs seen).2.1 := fun _ hx =>
  (dedupe_seen_mem bs seen _).mpr (Or.inl hx)

theorem dedupe_kept_names_fresh (bs : List Block) :
    ∀ seen, ((dedupe_blocks_by_name bs seen).1.map lname).Nodup ∧
      ∀ x ∈ (dedupe_blocks_by_name bs seen).1.map lname, x ∉ seen := by
  induction bs with
  | nil => intro seen; simp [dedupe_blocks_by_name]
  | cons b bs ih =>
    intro seen
    by_cases hc : seen.contains (lower (name_from_block b)) = true
    · simp only [dedupe_blocks_by_name, if_pos hc]
      exact ih seen
    · simp only [dedupe_blocks_by_name, if_neg hc, List.map_cons, List.nodup_cons,
        List.mem_cons]
      obtain ⟨h1, h2⟩ := ih (lower (name_from_block b) :: seen)
      have hnotin : lname b ∉ seen := fun h =>
        hc ((contains_iff_mem seen (lname b)).mpr h)
      refine ⟨⟨fun h => (h2 _ h) (List.mem_cons_self _ _), h1⟩, ?_⟩
      rintro x (rfl | hx)
      · exact hnotin
      · exact fun h => h2 x hx (List.mem_cons_of_mem _ h)

theorem dedupe_kept_names_in_final (bs : List Block) (seen : List Str) :
    ∀ x ∈ (dedupe_blocks_by_name bs seen).1.map lname,
      x ∈ (dedupe_blocks_by_name bs seen).2.1 := fun _ hx =>
  (dedupe_seen_mem bs seen _).mpr (Or.inr hx)

theorem dedupeChain_seen_subset (srcs : List (List Block)) :
    ∀ seen, seen ⊆ (dedupeChain srcs seen).2 := by
  induction srcs with
  | nil => intro seen; simp [dedupeChain]
  | cons bs rest ih =>
    intro seen
    simp only [dedupeChain]
    exact (dedupe_seen_subset bs seen).trans (ih _)

theorem dedupeChain_kept_subset_final (srcs : List (List Block)) :
    ∀ seen x, x ∈ ((dedupeChain srcs seen).1.flatten.map lname) →
      x ∈ (dedupeChain srcs seen).2 := by
  induction srcs with
  | nil => intro seen x hx; simp [dedupeChain] at hx
  | cons bs rest ih =>
    intro seen x hx
    simp only [dedupeChain, List.flatten_cons, List.map_append, List.mem_append] at hx ⊢
    rcases hx with hx | hx
    · exact dedupeChain_seen_subset rest _ (dedupe_kept_names_in_final bs seen x hx)
    · exact ih _ x hx

theorem dedupeChain_names_fresh (srcs : List (List Block)) :
    ∀ seen, ((dedupeChain srcs seen).1.flatten.map lname).Nodup ∧
      ∀ x ∈ (dedupeChain srcs seen).1.flatten.map lname, x ∉ seen := by
  induction srcs with
  | nil => intro seen; simp [dedupeChain]
  | cons bs rest ih =>
    intro seen
    simp only [dedupeChain, List.flatten_cons, List.map_append]
    obtain ⟨h1, h2⟩ := dedupe_kept_names_fresh bs seen
    obtain ⟨h3, h4⟩ := ih (dedupe_blocks_by_name bs seen).2.1
    constructor
    · rw [List.nodup_append]
      refine ⟨h1, h3, fun x hx hx' => ?_⟩
      exact h4 x hx' (dedupe_kept_names_in_final bs seen x hx)
    · intro x hx
      rcases List.mem_append.mp hx with hx | hx
      · exact h2 x hx
      · exact fun h => h4 x hx (dedupe_seen_subset bs seen h)

/-- Modelled from the spec's filter rules (§4.2), for the configuration used
by `fetch_and_filter` (prefix character `[`, brand substring `fanduel`,
blocked-host substring `moveonjoy`): the entry is dropped when any rule
matches. -/
def dropSpec (ignore_names : List Str) (name : Str) (block : Block) : Prop :=
  name = []
  ∨ startswith (str "[") (lstrip name) = true
  ∨ lower (pyStrip name) ∈ ignore_names
  ∨ containsSub (str "fanduel") (lower name) = true
  ∨ containsSub (str "fanduel") (lower (block.headD [])) = true
  ∨ containsSub (str "moveonjoy") (lower (joinNL block)) = true

instance (ignore_names : List Str) (name : Str) (block : Block) :
    Decidable (dropSpec ignore_names name block) := by
  unfold dropSpec; infer_instance

theorem should_skip_iff (name : Str) (ignore_names : List Str) :
    should_skip name (str "[") ignore_names = true ↔
      name = [] ∨ startswith (str "[") (lstrip name) = true ∨
        lower (pyStrip name) ∈ ignore_names := by
  unfold should_skip
  rw [show (!(str "[").isEmpty) = true from rfl, Bool.true_and]
  split_ifs with h1 h2 h3
  · simp [List.isEmpty_iff.mp h1]
  · simp [h2]
  · simp [(contains_iff_mem _ _).mp h3]
  · have hne : ¬name = [] := fun h => h1 (by simp [h])
    have h3' : lower (pyStrip name) ∉ ignore_names := fun h =>
      h3 ((contains_iff_mem _ _).mpr h)
    simp [hne, h2, h3']

theorem dropSpec_iff (ignore_names : List Str) (name : Str) (block : Block) :
    (should_skip name (str "[") ignore_names || containsSub (str "fanduel") (lower name)
      || containsSub (str "fanduel") (lower (block.headD []))
      || containsSub (str "moveonjoy") (lower (joinNL block))) = true ↔
      dropSpec ignore_names name block := by
  simp only [Bool.or_eq_true, should_skip_iff, dropSpec]
  tauto

theorem filterBlocks_cons (ignore_names : List Str) (name : Str) (block : Block)
    (bs : List (Str × Block)) :
    filterBlocks ((name, block) :: bs) ignore_names =
      if should_skip name (str "[") ignore_names || containsSub (str "fanduel") (lower name)
          || containsSub (str "fanduel") (lower (block.headD []))
          || containsSub (str "moveonjoy") (lower (joinNL block)) then
        ((filterBlocks bs ignore_names).1, (filterBlocks bs ignore_names).2 + 1)
      else (block :: (filterBlocks bs ignore_names).1, (filterBlocks bs ignore_names).2) := by
  by_cases h1 : (should_skip name (str "[") ignore_names
      || containsSub (str "fanduel") (lower name)) = true
  · simp only [filterBlocks]
    rw [h1]
    simp
  · rw [Bool.not_eq_true] at h1
    by_cases h2 : containsSub (str "fanduel") (lower (block.headD [])) = true
    · simp only [filterBlocks]
      rw [h1, h2]
      simp
    · rw [Bool.not_eq_true] at h2
      by_cases h3 : containsSub (str "moveonjoy") (lower (joinNL block)) = true
      · simp only [filterBlocks]
        rw [h1, h2, h3]
        simp
      · rw [Bool.not_eq_true] at h3
        simp only [filterBlocks]
        rw [h1, h2, h3]
        simp

theorem filterBlocks_eq (ignore_names : List Str) (bs : List (Str × Block)) :
    filterBlocks bs ignore_names =
      ((bs.filter (fun nb => !decide (dropSpec ignore_names nb.1 nb.2))).map Prod.snd,
       (bs.filter (fun nb => decide (dropSpec ignore_names nb.1 nb.2))).length) := by
  induction bs with
  | nil => simp [filterBlocks]
  | cons nb bs ih =>
    obtain ⟨name, block⟩ := nb
    rw [filterBlocks_cons]
    by_cases hd : dropSpec ignore_names name block
    · rw [if_pos ((dropSpec_iff ignore_names name block).mpr hd)]
      simp [List.filter_cons, decide_eq_true hd, ih]
    · rw [if_neg (fun h => hd ((dropSpec_iff ignore_names name block).mp h))]
      simp [List.filter_cons, decide_eq_false hd, ih]

theorem filterBlocks_count (ignore_names : List Str) (bs : List (Str × Block)) :
    (filterBlocks bs ignore_names).1.length + (filterBlocks bs ignore_names).2 = bs.length := by
  induction bs with
  | nil => simp [filterBlocks]
  | cons nb bs ih =>
    obtain ⟨name, block⟩ := nb
    rw [filterBlocks_cons]
    by_cases h : (should_skip name (str "[") ignore_names
        || containsSub (str "fanduel") (lower name)
        || containsSub (str "fanduel") (lower (block.headD []))
        || containsSub (str "moveonjoy") (lower (joinNL block))) = true
    · rw [if_pos h]; simpa using by omega
    · rw [if_neg h]; simpa using by omega

theorem filterBlocks_sublist (ignore_names : List Str) (bs : List (Str × Block)) :
    List.Sublist (filterBlocks bs ignore_names).1 (bs.map Prod.snd) := by
  induction bs with
  | nil => simp [filterBlocks]
  | cons nb bs ih =>
    obtain ⟨name, block⟩ := nb
    rw [filterBlocks_cons]
    by_cases h : (should_skip name (str "[") ignore_names
        || containsSub (str "fanduel") (lower name)
        || containsSub (str "fanduel") (lower (block.headD []))
        || containsSub (str "moveonjoy") (lower (joinNL block))) = true
    · rw [if_pos h]; exact ih.cons block
    · rw [if_neg h]; exact ih.cons₂ block

theorem extinf_not_http (s : Str) (h : startswith (str "#EXTINF") s = true) :
    startswith (str "http") s = false := by
  cases s with
  | nil =>
    rw [show str "#EXTINF" = ['#', 'E', 'X', 'T', 'I', 'N', 'F'] from rfl] at h
    simp [startswith] at h
  | cons c cs =>
    rw [show str "#EXTINF" = ['#', 'E', 'X', 'T', 'I', 'N', 'F'] from rfl] at h
    rw [show str "http" = ['h', 't', 't', 'p'] from rfl]
    simp only [startswith, List.isPrefixOf_cons₂, Bool.and_eq_true, beq_iff_eq] at h
    obtain ⟨rfl, -⟩ := h
    simp [startswith, List.isPrefixOf_cons₂]

theorem collectBlock_no_http (ls : List Str)
    (h : ∀ l ∈ ls, startswith (str "http") (pyStrip l) = false) :
    collectBlock ls = (ls, []) := by
  induction ls with
  | nil => rfl
  | cons l rest ih =>
    simp only [collectBlock]
    rw [h l (List.mem_cons_self _ _)]
    simp only [Bool.false_eq_true, if_false]
    rw [ih (fun x hx => h x (List.mem_cons_of_mem _ hx))]

theorem collectBlock_dropLast_no_http (ls : List Str) :
    ∀ l ∈ (collectBlock ls).1.dropLast, startswith (str "http") (pyStrip l) = false := by
  induction ls with
  | nil => simp [collectBlock]
  | cons l rest ih =>
    by_cases hc : startswith (str "http") (pyStrip l) = true
    · simp [collectBlock, hc]
    · rw [Bool.not_eq_true] at hc
      simp only [collectBlock, hc, Bool.false_eq_true, if_false]
      rcases hrest : (collectBlock rest).1 with _ | ⟨b, bs⟩
      · simp
      · intro x hx
        rw [List.dropLast_cons₂, List.mem_cons] at hx
        rcases hx with rfl | hx
        · exact hc
        · exact ih x (by rw [hrest]; exact hx)

theorem collectBlock_tail_cases (xs tail : List Str)
    (htail : ∀ l ∈ tail, startswith (str "http") (pyStrip l) = false) :
    collectBlock (xs ++ tail) = (xs ++ tail, []) ∨
    ∃ taken xs', xs = taken ++ xs' ∧ taken ≠ [] ∧
      collectBlock (xs ++ tail) = (taken, xs' ++ tail) := by
  induction xs with
  | nil =>
    left
    simpa using collectBlock_no_http tail htail
  | cons x xs₀ ih =>
    by_cases hx : startswith (str "http") (pyStrip x) = true
    · right
      refine ⟨[x], xs₀, rfl, by simp, ?_⟩
      simp only [List.cons_append, collectBlock]
      rw [if_pos hx]
      rfl
    · rw [Bool.not_eq_true] at hx
      have hstep : collectBlock ((x :: xs₀) ++ tail) =
          (x :: (collectBlock (xs₀ ++ tail)).1, (collectBlock (xs₀ ++ tail)).2) := by
        simp only [List.cons_append, collectBlock]
        rw [hx]
        simp
      rcases ih with h | ⟨taken, xs', hxs, hne, h⟩
      · left
        rw [hstep, h]
        rfl
      · right
        refine ⟨x :: taken, xs', by rw [hxs]; rfl, by simp, ?_⟩
        rw [hstep, h]

theorem parseLines_emits_open_tail (fuel : Nat) :
    ∀ (pre : List Str) (line : Str) (rest : List Str),
      (pre ++ line :: rest).length ≤ fuel →
      startswith (str "#EXTINF") (pyStrip line) = true →
      (∀ l ∈ rest, startswith (str "http") (pyStrip l) = false) →
      ∃ bs nb, parseLines fuel (pre ++ line :: rest) = bs ++ [nb] ∧
        List.IsSuffix (line :: rest) nb.2 ∧
        List.IsSuffix nb.2 (pre ++ line :: rest) := by
  induction fuel with
  | zero =>
    intro pre line rest hlen _ _
    simp at hlen
  | succ fuel ih =>
    intro pre line rest hlen hext hhttp
    have htail : ∀ l ∈ line :: rest, startswith (str "http") (pyStrip l) = false := by
      intro l hl
      rcases List.mem_cons.mp hl with rfl | hl
      · exact extinf_not_http _ hext
      · exact hhttp l hl
    cases pre with
    | nil =>
      refine ⟨[], (nameFromExtinf line, line :: rest), ?_, ⟨[], rfl⟩, ⟨[], rfl⟩⟩
      simp only [List.nil_append]
      rw [parseLines, if_pos hext, collectBlock_no_http rest hhttp]
      simp [parseLines_nil]
    | cons p pre' =>
      by_cases hp : startswith (str "#EXTINF") (pyStrip p) = true
      · have hstep : parseLines (fuel + 1) ((p :: pre') ++ line :: rest) =
            (nameFromExtinf p, p :: (collectBlock (pre' ++ line :: rest)).1) ::
              parseLines fuel (collectBlock (pre' ++ line :: rest)).2 := by
          simp only [List.cons_append, parseLines]
          rw [if_pos hp]
          rfl
        rcases collectBlock_tail_cases pre' (line :: rest) htail with h | ⟨taken, xs', hxs, hne, h⟩
        · refine ⟨[], (nameFromExtinf p, p :: (pre' ++ line :: rest)), ?_,
            ⟨p :: pre', rfl⟩, ⟨[], rfl⟩⟩
          rw [hstep, h]
          simp [parseLines_nil]
        · rw [hstep, h]
          have hlen' : (xs' ++ line :: rest).length ≤ fuel := by
            have h1 : (p :: pre' ++ line :: rest).length ≤ fuel + 1 := hlen
            have h2 : pre'.length = taken.length + xs'.length := by
              rw [hxs, List.length_append]
            have h3 : 1 ≤ taken.length := List.length_pos.mpr hne
            simp only [List.length_cons, List.length_append] at h1 ⊢
            omega
          obtain ⟨bs, nb, heq, hsuf, hsuf2⟩ := ih xs' line rest hlen' hext hhttp
          refine ⟨(nameFromExtinf p, p :: taken) :: bs, nb, by rw [heq]; rfl, hsuf, ?_⟩
          obtain ⟨t, ht⟩ := hsuf2
          exact ⟨p :: taken ++ t, by rw [hxs]; simp [← ht]⟩
      · rw [Bool.not_eq_true] at hp
        have hstep : parseLines (fuel + 1) ((p :: pre') ++ line :: rest) =
            parseLines fuel (pre' ++ line :: rest) := by
          simp only [List.cons_append, parseLines]
          rw [hp]
          simp
        have hlen' : (pre' ++ line :: rest).length ≤ fuel := by
          simp only [List.length_cons, List.length_append] at hlen ⊢
          omega
        obtain ⟨bs, nb, heq, hsuf, hsuf2⟩ := ih pre' line rest hlen' hext hhttp
        refine ⟨bs, nb, by rw [hstep, heq], hsuf, ?_⟩
        obtain ⟨t, ht⟩ := hsuf2
        exact ⟨p :: t, by simp [← ht]⟩

theorem parseLines_shape (fuel : Nat) :
    ∀ ls : List Str, ∀ nb ∈ parseLines fuel ls, nb.2 ≠ [] ∧
      startswith (str "#EXTINF") (pyStrip (nb.2.headD [])) = true ∧
      (∀ l ∈ nb.2.dropLast, startswith (str "http") (pyStrip l) = false) ∧
      nb.1 = name_from_block nb.2 := by
  induction fuel with
  | zero => intro ls nb hnb; simp [parseLines] at hnb
  | succ fuel ih =>
    intro ls
    cases ls with
    | nil => intro nb hnb; simp [parseLines] at hnb
    | cons line rest =>
      intro nb hnb
      by_cases h : startswith (str "#EXTINF") (pyStrip line) = true
      · rw [parseLines, if_pos h] at hnb
        simp only [List.mem_cons] at hnb
        rcases hnb with rfl | hnb
        · refine ⟨by simp, by simpa using h, ?_, rfl⟩
          rcases hfst : (collectBlock rest).1 with _ | ⟨b, bs⟩
          · simp
          · intro x hx
            rw [List.dropLast_cons₂, List.mem_cons] at hx
            rcases hx with rfl | hx
            · exact extinf_not_http _ h
            · have h2 := collectBlock_dropLast_no_http rest x
              rw [hfst] at h2
              exact h2 hx
        · exact ih _ nb hnb
      · rw [Bool.not_eq_true] at h
        rw [parseLines] at hnb
        rw [h] at hnb
        simp only [Bool.false_eq_true, if_false] at hnb
        exact ih rest nb hnb

theorem joinNL_append_singleton (M : List Str) (x : Str) (hM : M ≠ []) :
    joinNL (M ++ [x]) = joinNL M ++ '\n' :: x := by
  induction M with
  | nil => exact absurd rfl hM
  | cons m M ih =>
    cases M with
    | nil => rfl
    | cons m' M' =>
      have ih' := ih (by simp)
      simp only [List.cons_append] at ih' ⊢
      show m ++ '\n' :: joinNL (m' :: (M' ++ [x])) =
        (m ++ '\n' :: joinNL (m' :: M')) ++ '\n' :: x
      rw [ih']
      simp

/-- Whether the final section's last surviving block ends with a line that is
nonempty and does not itself end in a newline character (vacuously true when
the section has no surviving block). -/
def lastBlockEndsWell (kept : List Block) : Bool :=
  match kept.getLast? with
  | none => true
  | some b =>
    match b.getLast? with
    | none => false
    | some l =>
      match l.getLast? with
      | none => false
      | some c => c != '\n'

/-- The rendered text's final character is a newline and its second-to-last
character is not. -/
def endsWithExactlyOneNewline (s : Str) : Prop :=
  s.getLast? = some '\n' ∧ s.dropLast.getLast? ≠ some '\n'

instance (s : Str) : Decidable (endsWithExactlyOneNewline s) := by
  unfold endsWithExactlyOneNewline; infer_instance

theorem render_trailing (P : List Str) (hdr : Str) (ks : List Block)
    (hP : P ≠ []) (hhdr : hdr ≠ []) (hhdr2 : hdr.getLast? ≠ some '\n') :
    (renderText (P ++ sectionLines hdr ks)).getLast? = some '\n' ∧
    (lastBlockEndsWell ks = true →
      (renderText (P ++ sectionLines hdr ks)).dropLast.getLast? ≠ some '\n') := by
  rcases ks.eq_nil_or_concat' with rfl | ⟨ks', b, rfl⟩
  · have hlines : P ++ sectionLines hdr [] = P ++ [hdr] := rfl
    have hjoin : joinNL (P ++ [hdr]) = joinNL P ++ '\n' :: hdr :=
      joinNL_append_singleton P hdr hP
    have hg : (joinNL P ++ '\n' :: hdr).getLast? = hdr.getLast? := by
      rw [List.getLast?_append_of_ne_nil _ (by simp)]
      cases hdr with
      | nil => exact absurd rfl hhdr
      | cons c cs => exact List.getLast?_cons_cons
    have hnot : endsWithNewline (joinNL (P ++ [hdr])) = false := by
      rw [endsWithNewline, hjoin, hg]
      simpa using hhdr2
    rw [hlines, renderText, hnot]
    simp only [Bool.false_eq_true, if_false]
    refine ⟨List.getLast?_concat _, fun _ => ?_⟩
    rw [List.dropLast_concat, hjoin, hg]
    exact hhdr2
  · rcases b.eq_nil_or_concat' with rfl | ⟨b', l, rfl⟩
    · have hlines : P ++ sectionLines hdr (ks' ++ [[]]) =
          (P ++ hdr :: (ks'.map (fun block => block ++ [[]])).flatten) ++ [([] : Str)] := by
        simp [sectionLines, List.append_assoc]
      have hjoin : joinNL ((P ++ hdr :: (ks'.map (fun block => block ++ [[]])).flatten)
          ++ [([] : Str)]) =
          joinNL (P ++ hdr :: (ks'.map (fun block => block ++ [[]])).flatten) ++ ['\n'] := by
        rw [joinNL_append_singleton _ _ (by cases P <;> simp_all)]
      have hend : endsWithNewline (joinNL (P ++ sectionLines hdr (ks' ++ [[]]))) = true := by
        rw [hlines, hjoin, endsWithNewline, List.getLast?_concat]
        simp
      constructor
      · rw [renderText, hend]
        simp only [if_true]
        rw [hlines, hjoin, List.getLast?_concat]
      · intro hwell
        exfalso
        rw [lastBlockEndsWell] at hwell
        rw [List.getLast?_concat] at hwell
        simp at hwell
    · have hlines : P ++ sectionLines hdr (ks' ++ [b' ++ [l]]) =
          ((P ++ hdr :: (ks'.map (fun block => block ++ [[]])).flatten ++ b') ++ [l])
            ++ [([] : Str)] := by
        simp [sectionLines, List.append_assoc]
      have hM : (P ++ hdr :: (ks'.map (fun block => block ++ [[]])).flatten ++ b') ≠ [] := by
        cases P <;> simp_all
      have hjoin1 : joinNL ((P ++ hdr :: (ks'.map (fun block => block ++ [[]])).flatten ++ b')
          ++ [l]) =
          joinNL (P ++ hdr :: (ks'.map (fun block => block ++ [[]])).flatten ++ b')
            ++ '\n' :: l :=
        joinNL_append_singleton _ _ hM
      have hjoin2 : joinNL (((P ++ hdr :: (ks'.map (fun block => block ++ [[]])).flatten ++ b')
          ++ [l]) ++ [([] : Str)]) =
          (joinNL (P ++ hdr :: (ks'.map (fun block => block ++ [[]])).flatten ++ b')
            ++ '\n' :: l) ++ ['\n'] := by
        rw [joinNL_append_singleton _ _ (by simp), hjoin1]
      have hend : endsWithNewline (joinNL (P ++ sectionLines hdr (ks' ++ [b' ++ [l]]))) = true := by
        rw [hlines, hjoin2, endsWithNewline, List.getLast?_concat]
        simp
      constructor
      · rw [renderText, hend]
        simp only [if_true]
        rw [hlines, hjoin2, List.getLast?_concat]
      · intro hwell
        rw [lastBlockEndsWell, List.getLast?_concat] at hwell
        simp only [List.getLast?_concat] at hwell
        rcases hl : l.getLast? with _ | c
        · rw [hl] at hwell; cases hwell
        · rw [hl] at hwell
          have hc : c ≠ '\n' := by simpa using hwell
          have hlne : l ≠ [] := by
            intro h; rw [h] at hl; cases hl
          rw [renderText, hend]
          simp only [if_true]
          rw [hlines, hjoin2, List.dropLast_concat]
          rw [List.getLast?_append_of_ne_nil _ (by simp)]
          have : ('\n' :: l).getLast? = l.getLast? := by
            cases l with
            | nil => exact absurd rfl hlne
            | cons a as => exact List.getLast?_cons_cons
          rw [this, hl]
          simp [hc]

/-- The `ignore_names` set built in `main`. -/
def main_ignore_names : List Str :=
  [str "fanduel", str "bbc america sd", str "bbc america hd", str "bet hd"]

theorem main_model_ok (ignore_names : List Str) (iso : Str) (dryRun : Bool)
    (t1 t2 t3 t4 t5 t6 t7 t8 t9 : Str) :
    main_model ignore_names iso dryRun (.ok t1) (.ok t2) (.ok t3) (.ok t4) (.ok t5)
        (.ok t6) (.ok t7) (.ok t8) (.ok t9) =
      (0, if dryRun then none
          else some (syncPipeline ignore_names iso t1 t2 t3 t4 t5 t6 t7 t8 t9)) := by
  cases dryRun <;> rfl

theorem main_model_error (ignore_names : List Str) (iso : Str) (dryRun : Bool)
    (r1 r2 r3 r4 r5 r6 r7 r8 r9 : Except Str Str)
    (h : (∃ e, r1 = .error e) ∨ (∃ e, r2 = .error e) ∨ (∃ e, r3 = .error e) ∨
      (∃ e, r4 = .error e) ∨ (∃ e, r5 = .error e) ∨ (∃ e, r6 = .error e) ∨
      (∃ e, r7 = .error e) ∨ (∃ e, r8 = .error e) ∨ (∃ e, r9 = .error e)) :
    main_model ignore_names iso dryRun r1 r2 r3 r4 r5 r6 r7 r8 r9 = (1, none) := by
  rcases h with ⟨e, rfl⟩ | ⟨e, rfl⟩ | ⟨e, rfl⟩ | ⟨e, rfl⟩ | ⟨e, rfl⟩ | ⟨e, rfl⟩ |
    ⟨e, rfl⟩ | ⟨e, rfl⟩ | ⟨e, rfl⟩
  · rfl
  · cases r1 <;> rfl
  · cases r1 <;> cases r2 <;> rfl
  · cases r1 <;> cases r2 <;> cases r3 <;> rfl
  · cases r1 <;> cases r2 <;> cases r3 <;> cases r4 <;> rfl
  · cases r1 <;> cases r2 <;> cases r3 <;> cases r4 <;> cases r5 <;> rfl
  · cases r1 <;> cases r2 <;> cases r3 <;> cases r4 <;> cases r5 <;> cases r6 <;> rfl
  · cases r1 <;> cases r2 <;> cases r3 <;> cases r4 <;> cases r5 <;> cases r6 <;>
      cases r7 <;> rfl
  · cases r1 <;> cases r2 <;> cases r3 <;> cases r4 <;> cases r5 <;> cases r6 <;>
      cases r7 <;> cases r8 <;> rfl

theorem ts_not_header (iso : Str) :
    sectionHeaders.contains (str "# Last synced: " ++ iso ++ ['Z']) = false := by
  by_contra h
  rw [Bool.not_eq_false] at h
  have hm := (contains_iff_mem _ _).mp h
  have h2 : (str "# Last synced: " ++ iso ++ ['Z'])[2]? = some 'L' := rfl
  simp only [sectionHeaders, List.mem_cons, List.not_mem_nil, or_false] at hm
  rcases hm with hh | hh | hh | hh | hh | hh | hh | hh | hh <;>
    (rw [hh] at h2; exact absurd h2 (by decide))

theorem section_filter (hdr : Str) (ks : List Block)
    (hhdr : sectionHeaders.contains hdr = true)
    (hks : ∀ b ∈ ks, ∀ l ∈ b, sectionHeaders.contains l = false) :
    (sectionLines hdr ks).filter (fun l => sectionHeaders.contains l) = [hdr] := by
  simp only [sectionLines, List.filter_cons, hhdr, if_pos]
  suffices hflat : ((ks.map (fun block => block ++ [[]])).flatten).filter
      (fun l => sectionHeaders.contains l) = [] by
    rw [hflat]
  rw [List.filter_eq_nil_iff]
  intro l hl
  rw [List.mem_flatten] at hl
  obtain ⟨bl, hbl, hlbl⟩ := hl
  rw [List.mem_map] at hbl
  obtain ⟨b, hb, rfl⟩ := hbl
  rcases List.mem_append.mp hlbl with hlb | hle
  · have hf := hks b hb l hlb
    intro hmem
    rw [hmem] at hf
    simp at hf
  · have : l = [] := by simpa using hle
    subst this
    decide

theorem outLines_header_filter (iso : Str)
    (k1 k2 k3 k4 k5 k6 k7 k8 k9 : List Block)
    (h1 : ∀ b ∈ k1, ∀ l ∈ b, sectionHeaders.contains l = false)
    (h2 : ∀ b ∈ k2, ∀ l ∈ b, sectionHeaders.contains l = false)
    (h3 : ∀ b ∈ k3, ∀ l ∈ b, sectionHeaders.contains l = false)
    (h4 : ∀ b ∈ k4, ∀ l ∈ b, sectionHeaders.contains l = false)
    (h5 : ∀ b ∈ k5, ∀ l ∈ b, sectionHeaders.contains l = false)
    (h6 : ∀ b ∈ k6, ∀ l ∈ b, sectionHeaders.contains l = false)
    (h7 : ∀ b ∈ k7, ∀ l ∈ b, sectionHeaders.contains l = false)
    (h8 : ∀ b ∈ k8, ∀ l ∈ b, sectionHeaders.contains l = false)
    (h9 : ∀ b ∈ k9, ∀ l ∈ b, sectionHeaders.contains l = false) :
    (outLines iso k1 k2 k3 k4 k5 k6 k7 k8 k9).filter
      (fun l => sectionHeaders.contains l) = sectionHeaders := by
  have hpre : [str "#EXTM3U", str "# Last synced: " ++ iso ++ ['Z'], ([] : Str)].filter
      (fun l => sectionHeaders.contains l) = [] := by
    simp only [List.filter_cons, List.filter_nil, ts_not_header iso]
    rw [show sectionHeaders.contains (str "#EXTM3U") = false from by decide,
      show sectionHeaders.contains ([] : Str) = false from by decide]
    simp
  simp only [outLines, List.filter_append]
  rw [hpre, section_filter _ _ (by decide) h1, section_filter _ _ (by decide) h2,
    section_filter _ _ (by decide) h3, section_filter _ _ (by decide) h4,
    section_filter _ _ (by decide) h5, section_filter _ _ (by decide) h6,
    section_filter _ _ (by decide) h7, section_filter _ _ (by decide) h8,
    section_filter _ _ (by decide) h9]
  rfl

/-- C1: `dedupe_blocks_by_name` returns exactly the subsequence of blocks
whose lowercased display name was not in the seen set at the moment the block
is processed (equivalently, not in the initial set and not the lowercased
name of any earlier block of the list, so within-source duplicates and case
variants are dropped and the first occurrence wins); each kept block's
lowercased name is added to the set; and the duplicate count equals the
number of dropped blocks. -/
theorem C1_dedupe_contract (blocks : List Block) (seen₀ : List Str) :
    (dedupe_blocks_by_name blocks seen₀).1 = dedupeKeptSpec seen₀ [] blocks ∧
    (∀ x, x ∈ (dedupe_blocks_by_name blocks seen₀).2.1 ↔
      x ∈ seen₀ ∨ x ∈ (dedupe_blocks_by_name blocks seen₀).1.map lname) ∧
    (dedupe_blocks_by_name blocks seen₀).1.length +
      (dedupe_blocks_by_name blocks seen₀).2.2 = blocks.length ∧
    List.Sublist (dedupe_blocks_by_name blocks seen₀).1 blocks :=
  ⟨dedupe_kept_eq_spec seen₀ blocks [] seen₀ (by simp),
   dedupe_seen_mem blocks seen₀,
   dedupe_count blocks seen₀,
   dedupe_kept_sublist blocks seen₀⟩

/-- C2: the filter pass keeps exactly the parsed entries matching none of the
six drop rules of `dropSpec` (empty name; name starting with `[` after
leading-whitespace strip; lowercased trimmed name in the exclusion set;
`fanduel` in the lowercased name; `fanduel` in the lowercased metadata line;
`moveonjoy` in the lowercased block text), and its skipped count equals the
number of dropped entries. -/
theorem C2_filter_rules (text : Str) (ignore_names : List Str) :
    (fetch_and_filter text ignore_names).1 =
      ((parse_m3u_blocks text).filter
        (fun nb => !decide (dropSpec ignore_names nb.1 nb.2))).map Prod.snd ∧
    (fetch_and_filter text ignore_names).2 =
      ((parse_m3u_blocks text).filter
        (fun nb => decide (dropSpec ignore_names nb.1 nb.2))).length :=
  ⟨congrArg Prod.fst (filterBlocks_eq ignore_names (parse_m3u_blocks text)),
   congrArg Prod.snd (filterBlocks_eq ignore_names (parse_m3u_blocks text))⟩

/-- C3: the seen-name set is monotone (threading it through any list of
sources only ever grows it) and separating (starting from the empty set, no
two blocks kept across all sources share a lowercased display name). -/
theorem C3_seen_monotone_separating :
    (∀ (sources : List (List Block)) (seen₀ : List Str),
      seen₀ ⊆ (dedupeChain sources seen₀).2) ∧
    (∀ sources : List (List Block),
      ((dedupeChain sources []).1.flatten.map lname).Nodup) :=
  ⟨fun sources seen₀ => dedupeChain_seen_subset sources seen₀,
   fun sources => (dedupeChain_names_fresh sources []).1⟩

/-- C4: for every source text, the number of blocks surviving filter and
dedupe equals the number of parsed entries minus the filter-skipped count
minus the duplicate-skipped count. -/
theorem C4_count_conservation (text : Str) (ignore_names seen : List Str) :
    (dedupe_blocks_by_name (fetch_and_filter text ignore_names).1 seen).1.length =
      (parse_m3u_blocks text).length - (fetch_and_filter text ignore_names).2 -
        (dedupe_blocks_by_name (fetch_and_filter text ignore_names).1 seen).2.2 := by
  have h1 := filterBlocks_count ignore_names (parse_m3u_blocks text)
  have h2 := dedupe_count (fetch_and_filter text ignore_names).1 seen
  have h3 : (fetch_and_filter text ignore_names).1.length +
      (fetch_and_filter text ignore_names).2 = (parse_m3u_blocks text).length := h1
  omega

/-- C5: only names of entries that survive the filter ever enter the seen
set; concretely, an earlier-source entry named `[Regional] Channel 7` is
dropped by the filter and does not block a later source's `Channel 7`, which
is retained. -/
theorem C5_filter_before_dedupe :
    (∀ (text : Str) (ignore_names seen : List Str) (x : Str),
      x ∈ (dedupe_blocks_by_name (fetch_and_filter text ignore_names).1 seen).2.1 →
        x ∈ seen ∨ ∃ b ∈ (fetch_and_filter text ignore_names).1, x = lname b) ∧
    ((dedupe_blocks_by_name
        (fetch_and_filter (str "#EXTINF:-1,Channel 7\nhttp://b") main_ignore_names).1
        (dedupe_blocks_by_name
          (fetch_and_filter (str "#EXTINF:-1,[Regional] Channel 7\nhttp://a")
            main_ignore_names).1 []).2.1).1 =
      [[str "#EXTINF:-1,Channel 7", str "http://b"]]) := by
  constructor
  · intro text ignore_names seen x hx
    rcases (dedupe_seen_mem (fetch_and_filter text ignore_names).1 seen x).mp hx with h | h
    · exact Or.inl h
    · rw [List.mem_map] at h
      obtain ⟨b, hb, rfl⟩ := h
      exact Or.inr ⟨b,
        (dedupe_kept_sublist (fetch_and_filter text ignore_names).1 seen).subset hb, rfl⟩
  · decide

/-- C6: the parser is total and permissive: for every input text, whenever a
metadata (`#EXTINF`) line is followed only by lines that do not start with
`http` — with arbitrary lines before it, be they ignored lines or earlier
entries — the parse still ends with an emitted open entry whose lines are a
suffix of the input containing that metadata line and everything after it;
and a metadata line without a comma yields an empty display name. -/
theorem C6_parser_permissive :
    (∀ (text : Str) (pre : List Str) (line : Str) (rest : List Str),
      splitlines text = pre ++ line :: rest →
      startswith (str "#EXTINF") (pyStrip line) = true →
      (∀ l ∈ rest, startswith (str "http") (pyStrip l) = false) →
      ∃ bs nb, parse_m3u_blocks text = bs ++ [nb] ∧
        List.IsSuffix (line :: rest) nb.2 ∧
        List.IsSuffix nb.2 (pre ++ line :: rest)) ∧
    (∀ (text : Str) (line : Str) (rest : List Str),
      splitlines text = line :: rest →
      startswith (str "#EXTINF") (pyStrip line) = true →
      (∀ l ∈ rest, startswith (str "http") (pyStrip l) = false) →
      parse_m3u_blocks text = [(nameFromExtinf line, line :: rest)]) ∧
    (∀ line : Str, ',' ∉ line → nameFromExtinf line = []) := by
  refine ⟨?_, ?_, ?_⟩
  · intro text pre line rest hsplit hext hhttp
    rw [parse_m3u_blocks, hsplit]
    exact parseLines_emits_open_tail (pre ++ line :: rest).length pre line rest le_rfl
      hext hhttp
  · intro text line rest hsplit hext hhttp
    rw [parse_m3u_blocks, hsplit]
    simp only [List.length_cons]
    rw [parseLines, if_pos hext, collectBlock_no_http rest hhttp]
    simp [parseLines_nil]
  · intro line hcomma
    rw [nameFromExtinf, if_neg hcomma]

/-- C7 (corrected): the rendered output always ends with at least one
trailing newline; it ends with exactly one provided the final (Plex)
section's last surviving block, if any, ends with a nonempty line that does
not itself end in a newline (`lastBlockEndsWell`).  The original claim
("exactly one, even when a surviving block's own last line is empty") fails:
see the counterexample. -/
theorem C7_trailing_newline (iso : Str) (k1 k2 k3 k4 k5 k6 k7 k8 k9 : List Block) :
    (renderText (outLines iso k1 k2 k3 k4 k5 k6 k7 k8 k9)).getLast? = some '\n' ∧
    (lastBlockEndsWell k9 = true →
      endsWithExactlyOneNewline (renderText (outLines iso k1 k2 k3 k4 k5 k6 k7 k8 k9))) := by
  have h := render_trailing
    ([str "#EXTM3U", str "# Last synced: " ++ iso ++ ['Z'], []]
      ++ sectionLines LIVE_SECTION k1 ++ sectionLines BACKUP_SECTION k2
      ++ sectionLines THETVAPP_SECTION k3 ++ sectionLines XUMO_SECTION k4
      ++ sectionLines LOCALNOW_SECTION k5 ++ sectionLines TUBI_SECTION k6
      ++ sectionLines ROKU_SECTION k7 ++ sectionLines PLUTO_SECTION k8)
    PLEX_SECTION k9 (by simp) (by decide) (by decide)
  exact ⟨h.1, fun hw => ⟨h.1, h.2 hw⟩⟩

/-- C7 counterexample: when the ninth (Plex) source's text is
`#EXTINF:-1,Name\n\n` — a surviving block whose last collected line is empty —
the full pipeline's output ends with two newline characters, not one. -/
theorem C7_counterexample :
    ¬endsWithExactlyOneNewline
      (syncPipeline main_ignore_names (str "TS") (str "") (str "") (str "") (str "")
        (str "") (str "") (str "") (str "") (str "#EXTINF:-1,Name\n\n")) := by
  decide

/-- C8: the filter and the dedupe pass each return an order-preserving
subsequence of their input, and the rendered output lists the nine section
headers in the fixed source priority order (whenever no surviving block line
textually equals a section header). -/
theorem C8_section_and_order :
    (∀ (ignore_names : List Str) (bs : List (Str × Block)),
      List.Sublist (filterBlocks bs ignore_names).1 (bs.map Prod.snd)) ∧
    (∀ (bs : List Block) (seen : List Str),
      List.Sublist (dedupe_blocks_by_name bs seen).1 bs) ∧
    (∀ (iso : Str) (k1 k2 k3 k4 k5 k6 k7 k8 k9 : List Block),
      (∀ ks ∈ [k1, k2, k3, k4, k5, k6, k7, k8, k9], ∀ b ∈ ks, ∀ l ∈ b,
        sectionHeaders.contains l = false) →
      (outLines iso k1 k2 k3 k4 k5 k6 k7 k8 k9).filter
        (fun l => sectionHeaders.contains l) = sectionHeaders) := by
  refine ⟨filterBlocks_sublist, dedupe_kept_sublist, ?_⟩
  intro iso k1 k2 k3 k4 k5 k6 k7 k8 k9 h
  exact outLines_header_filter iso k1 k2 k3 k4 k5 k6 k7 k8 k9
    (h k1 (by simp)) (h k2 (by simp)) (h k3 (by simp)) (h k4 (by simp))
    (h k5 (by simp)) (h k6 (by simp)) (h k7 (by simp)) (h k8 (by simp))
    (h k9 (by simp))

/-- C9: if any of the nine fetches fails, `main` exits with code 1 and the
output file is not written; when all nine succeed the exit code is 0 and the
output is written exactly when `--dry-run` is not set. -/
theorem C9_all_or_nothing :
    (∀ (ignore_names : List Str) (iso : Str) (dryRun : Bool)
        (r1 r2 r3 r4 r5 r6 r7 r8 r9 : Except Str Str),
      ((∃ e, r1 = .error e) ∨ (∃ e, r2 = .error e) ∨ (∃ e, r3 = .error e) ∨
        (∃ e, r4 = .error e) ∨ (∃ e, r5 = .error e) ∨ (∃ e, r6 = .error e) ∨
        (∃ e, r7 = .error e) ∨ (∃ e, r8 = .error e) ∨ (∃ e, r9 = .error e)) →
      main_model ignore_names iso dryRun r1 r2 r3 r4 r5 r6 r7 r8 r9 = (1, none)) ∧
    (∀ (ignore_names : List Str) (iso : Str) (dryRun : Bool) (t1 t2 t3 t4 t5 t6 t7 t8 t9 : Str),
      main_model ignore_names iso dryRun (.ok t1) (.ok t2) (.ok t3) (.ok t4) (.ok t5)
          (.ok t6) (.ok t7) (.ok t8) (.ok t9) =
        (0, if dryRun then none
            else some (syncPipeline ignore_names iso t1 t2 t3 t4 t5 t6 t7 t8 t9))) :=
  ⟨main_model_error, main_model_ok⟩

/-- C10: every pair returned by the parser has a non-empty block whose first
line's stripped content starts with `#EXTINF`, no line before the last starts
(after stripping) with `http`, and the paired name is exactly what
`_name_from_block` recomputes from the block. -/
theorem C10_parser_shape (text : Str) :
    ∀ nb ∈ parse_m3u_blocks text, nb.2 ≠ [] ∧
      startswith (str "#EXTINF") (pyStrip (nb.2.headD [])) = true ∧
      (∀ l ∈ nb.2.dropLast, startswith (str "http") (pyStrip l) = false) ∧
      nb.1 = name_from_block nb.2 :=
  parseLines_shape (splitlines text).length (splitlines text)

/-- Witness for C5 at a concrete input: the name `channel 7`, present in the
seen set after processing the second source, is the lowercased name of a
filter-surviving block. -/
theorem C5_witness :
    str "channel 7" ∈ ([] : List Str) ∨
      ∃ b ∈ (fetch_and_filter (str "#EXTINF:-1,Channel 7\nhttp://b")
        main_ignore_names).1, str "channel 7" = lname b :=
  C5_filter_before_dedupe.1 (str "#EXTINF:-1,Channel 7\nhttp://b") main_ignore_names
    [] (str "channel 7") (by decide)

/-- Witness for C6 at concrete inputs: a text with a blank line before the
unterminated entry still ends in an emitted open entry; a text that is one
metadata line plus a non-URL line parses to exactly that open entry; a
comma-free metadata line yields an empty display name. -/
theorem C6_witness :
    (∃ bs nb, parse_m3u_blocks (str "\n#EXTINF:-1,A\n#EXTGRP:x") = bs ++ [nb] ∧
      List.IsSuffix [str "#EXTINF:-1,A", str "#EXTGRP:x"] nb.2 ∧
      List.IsSuffix nb.2 ([[]] ++ [str "#EXTINF:-1,A", str "#EXTGRP:x"])) ∧
    parse_m3u_blocks (str "#EXTINF:-1 no-comma\n#EXTGRP:x") =
      [(nameFromExtinf (str "#EXTINF:-1 no-comma"),
        [str "#EXTINF:-1 no-comma", str "#EXTGRP:x"])] ∧
    nameFromExtinf (str "#EXTINF:-1 no-comma") = [] :=
  ⟨C6_parser_permissive.1 (str "\n#EXTINF:-1,A\n#EXTGRP:x") [[]]
      (str "#EXTINF:-1,A") [str "#EXTGRP:x"] (by decide) (by decide) (by decide),
   C6_parser_permissive.2.1 (str "#EXTINF:-1 no-comma\n#EXTGRP:x")
      (str "#EXTINF:-1 no-comma") [str "#EXTGRP:x"] (by decide) (by decide) (by decide),
   C6_parser_permissive.2.2 (str "#EXTINF:-1 no-comma") (by decide)⟩

/-- Witness for C7 (amended) at a concrete input: with no surviving blocks
at all, the rendered output ends with exactly one newline. -/
theorem C7_witness :
    lastBlockEndsWell ([] : List Block) = true ∧
    endsWithExactlyOneNewline
      (renderText (outLines (str "T") [] [] [] [] [] [] [] [] [])) :=
  ⟨by decide, (C7_trailing_newline (str "T") [] [] [] [] [] [] [] [] []).2 (by decide)⟩

/-- Witness for C8 at a concrete input: with a single surviving block in the
first source, the header filter of the rendered lines is exactly the nine
section headers in order. -/
theorem C8_witness :
    (outLines (str "T") [[str "#EXTINF:-1,A", str "http://x"]] [] [] [] [] [] [] [] []).filter
      (fun l => sectionHeaders.contains l) = sectionHeaders :=
  C8_section_and_order.2.2 (str "T") [[str "#EXTINF:-1,A", str "http://x"]]
    [] [] [] [] [] [] [] [] (by decide)

/-- Witness for C9 at a concrete input: a failing first fetch yields exit
code 1 and no written output. -/
theorem C9_witness :
    main_model main_ignore_names (str "T") false (.error (str "boom")) (.ok (str ""))
      (.ok (str "")) (.ok (str "")) (.ok (str "")) (.ok (str "")) (.ok (str ""))
      (.ok (str "")) (.ok (str "")) = (1, none) :=
  C9_all_or_nothing.1 main_ignore_names (str "T") false (.error (str "boom"))
    (.ok (str "")) (.ok (str "")) (.ok (str "")) (.ok (str "")) (.ok (str ""))
    (.ok (str "")) (.ok (str "")) (.ok (str ""))
    (Or.inl ⟨str "boom", rfl⟩)

/-- Witness for C10 at a concrete input: the single parsed block of a
two-line playlist satisfies all four shape invariants. -/
theorem C10_witness :
    (str "A", [str "#EXTINF:-1,A", str "http://x"]).2 ≠ [] ∧
      startswith (str "#EXTINF")
        (pyStrip ((str "A", [str "#EXTINF:-1,A", str "http://x"]).2.headD [])) = true ∧
      (∀ l ∈ (str "A", [str "#EXTINF:-1,A", str "http://x"]).2.dropLast,
        startswith (str "http") (pyStrip l) = false) ∧
      (str "A", [str "#EXTINF:-1,A", str "http://x"]).1 =
        name_from_block (str "A", [str "#EXTINF:-1,A", str "http://x"]).2 :=
  C10_parser_shape (str "#EXTINF:-1,A\nhttp://x")
    (str "A", [str "#EXTINF:-1,A", str "http://x"]) (by decide)

end Iptv
